import Mathlib

/-!
Shallow embedding of the linear mixed model synthetic experiment runner
from src/autora/experiment_runner/synthetic/abstract/lmm.py.

Strings are modelled with Lean strings; the Python regular expressions of
the source are translated into explicit character scanners; pandas data
frames become association lists from column names to lists of rationals;
the numpy generator becomes a stream of standard normal draws together
with a position, so a draw advances the position.  All arithmetic is over
the rationals, standing in for IEEE doubles on the exactly representable
inputs used here.
-/

set_option allowUnsafeReducibility true
attribute [semireducible] Rat.add Rat.mul Rat.sub Rat.inv Rat.div

/-- Python word characters, the regex class of letters, digits and underscore. -/
def isWordChar (c : Char) : Bool := c.isAlphanum || c = '_'

/-- Helper for splitting on a single separator character, accumulating the
current piece in reverse. -/
def pySplitAux (sep : Char) (acc : List Char) : List Char → List String
  | [] => [String.mk acc.reverse]
  | c :: rest =>
    if c = sep then String.mk acc.reverse :: pySplitAux sep [] rest
    else pySplitAux sep (c :: acc) rest

/-- Python str.split with a single-character separator: keeps empty pieces, and
the empty string yields one empty piece. -/
def pySplit (sep : Char) (s : String) : List String := pySplitAux sep [] s.toList

/-- Fuelled left-to-right non-overlapping replacement of a pattern, as Python
str.replace does; the fuel is the text length, enough for nonempty patterns. -/
def pyReplaceAux (patt repl : List Char) : ℕ → List Char → List Char
  | 0, l => l
  | _ + 1, [] => []
  | fuel + 1, c :: rest =>
    if (c :: rest).take patt.length = patt then
      repl ++ pyReplaceAux patt repl fuel ((c :: rest).drop patt.length)
    else c :: pyReplaceAux patt repl fuel rest

/-- Python str.replace on whole strings. -/
def pyReplace (s patt repl : String) : String :=
  String.mk (pyReplaceAux patt.toList repl.toList s.toList.length s.toList)

/-- Lexicographic order on character lists by code point, the Python string
order used by sorted. -/
def listLess : List Char → List Char → Bool
  | [], [] => false
  | [], _ :: _ => true
  | _ :: _, [] => false
  | a :: as, b :: bs =>
    if a.toNat < b.toNat then true
    else if b.toNat < a.toNat then false
    else listLess as bs

/-- Python string comparison by code points. -/
def pyLess (a b : String) : Bool := listLess a.toList b.toList

/-- Python str.strip: remove leading and trailing whitespace. -/
def pyStrip (s : String) : String :=
  String.mk (((s.toList.dropWhile Char.isWhitespace).reverse.dropWhile Char.isWhitespace).reverse)

/-- Scanner state for the regex searching a standalone token 0 in the right-hand
side of the formula: a character 0 with a word boundary on both sides.  The
first argument is the previous character, if any. -/
def hasZeroAux : Option Char → List Char → Bool
  | _, [] => false
  | prev, c :: rest =>
    if c = '0'
        && (match prev with | none => true | some p => !(isWordChar p))
        && (match rest with | [] => true | d :: _ => !(isWordChar d)) then
      true
    else hasZeroAux (some c) rest

/-- Embedding of the source test searching the right-hand side for a standalone 0. -/
def hasStandaloneZero (s : String) : Bool := hasZeroAux none s.toList

/-- Longest prefix of word characters, together with the remaining characters. -/
def wordRunAux : List Char → List Char × List Char
  | [] => ([], [])
  | c :: rest =>
    if isWordChar c then
      ((c :: (wordRunAux rest).1), (wordRunAux rest).2)
    else ([], c :: rest)

/-- Whether, scanning right, a closing parenthesis appears before any opening one.
This decides the negative lookahead of the fixed-effect token regex: the
lookahead fails exactly when this returns true. -/
def nextParenIsClose : List Char → Bool
  | [] => false
  | c :: rest => if c = ')' then true else if c = '(' then false else nextParenIsClose rest

/-- Backtracking of the greedy word-run: the largest token length, at least one,
whose following text does not place the token inside a parenthesized group. -/
def firstGoodLen (run_ : List Char) (rest : List Char) : ℕ → Option ℕ
  | 0 => none
  | n + 1 =>
    if !(nextParenIsClose (run_.drop (n + 1) ++ rest)) then some (n + 1)
    else firstGoodLen run_ rest n

/-- Fuelled scanner for the bare fixed-effect token regex of the source parser:
identifiers starting with a lowercase letter that are not inside a
parenthesized group.  The fuel is the length of the scanned text; one unit is
spent per consumed character, so the initial fuel is always enough. -/
def findFixedAux : ℕ → List Char → List String
  | 0, _ => []
  | _ + 1, [] => []
  | fuel + 1, c :: rest =>
    if c.isLower then
      match firstGoodLen (wordRunAux (c :: rest)).1 (wordRunAux (c :: rest)).2
          ((wordRunAux (c :: rest)).1).length with
      | some len =>
          String.mk ((wordRunAux (c :: rest)).1.take len) ::
            findFixedAux fuel ((wordRunAux (c :: rest)).1.drop len ++ (wordRunAux (c :: rest)).2)
      | none => findFixedAux fuel rest
    else findFixedAux fuel rest

/-- Bare fixed-effect tokens of a character sequence. -/
def findFixedTokens (l : List Char) : List String := findFixedAux l.length l

/-- Accumulating search for a delimiter, returning the characters before it
(already one character is in the accumulator) and the characters after it. -/
def findDelimGo (delim : Char) (acc : List Char) : List Char → Option (List Char × List Char)
  | [] => none
  | c :: rest => if c = delim then some (acc.reverse, rest) else findDelimGo delim (c :: acc) rest

/-- Nongreedy nonempty capture up to a delimiter: the first occurrence of the
delimiter at index at least one; the character at index zero is captured even
when it equals the delimiter. -/
def findDelimFrom1 (delim : Char) : List Char → Option (List Char × List Char)
  | [] => none
  | c :: rest => findDelimGo delim [c] rest

/-- Greedy negated-class nonempty capture up to a delimiter: fails when the very
first character is already the delimiter. -/
def findDelimStrict (delim : Char) : List Char → Option (List Char × List Char)
  | [] => none
  | c :: rest => if c = delim then none else findDelimGo delim [c] rest

/-- Fuelled scanner for the random-effect group regexes.  With strict false this
is the nongreedy regex used in the simulation function; with strict true it is
the negated-class regex used by the variable-name extraction.  The two differ
only on pathological inputs where a capture would start with its own
delimiter. -/
def findRandAux (strict : Bool) : ℕ → List Char → List (String × String)
  | 0, _ => []
  | _ + 1, [] => []
  | fuel + 1, c :: rest =>
    if c = '(' then
      match (if strict then findDelimStrict '|' rest else findDelimFrom1 '|' rest) with
      | some (cap1, rest2) =>
        match (if strict then findDelimStrict ')' rest2 else findDelimFrom1 ')' rest2) with
        | some (cap2, rest3) =>
            (String.mk cap1, String.mk cap2) :: findRandAux strict fuel rest3
        | none => findRandAux strict fuel rest
      | none => findRandAux strict fuel rest
    else findRandAux strict fuel rest

/-- Random-effect terms as found by the simulation function. -/
def findRandTermsRun (l : List Char) : List (String × String) := findRandAux false l.length l

/-- Random-effect terms as found by the variable-name extraction. -/
def findRandTermsParser (l : List Char) : List (String × String) := findRandAux true l.length l

/-- Insertion into a strictly sorted list, dropping duplicates. -/
def insertSorted (x : String) : List String → List String
  | [] => [x]
  | y :: ys =>
    if pyLess x y then x :: y :: ys
    else if x = y then y :: ys
    else y :: insertSorted x ys

/-- Embedding of sorted set construction: the sorted duplicate-free list with the
same members as the input. -/
def dedupSort (l : List String) : List String := l.foldr insertSorted []

/-- Fixed-effect names of a right-hand side: bare tokens plus, for each
random-effect term, its left list split on plus signs after removing the
literal text consisting of 1, space, plus, space; all stripped, de-duplicated
and sorted. -/
def fixedVarsOf (rhs : String) : List String :=
  dedupSort
    (((findFixedTokens rhs.toList) ++
        ((findRandTermsParser rhs.toList).map
          (fun t => pySplit '+' (pyReplace t.1 "1 + " ""))).flatten).map pyStrip)

/-- Random-effect grouping variables of a right-hand side, stripped,
de-duplicated and sorted. -/
def groupsOf (rhs : String) : List String :=
  dedupSort ((findRandTermsParser rhs.toList).map (fun t => pyStrip t.2))

/-- Embedding of the variable-name extraction of the source: dependent variable,
fixed-effect names and random grouping variables; none when the formula does
not split on the tilde into exactly two parts. -/
def _extract_variable_names (formula : String) : Option (String × List String × List String) :=
  match pySplit '~' formula with
  | [d, r] => some (pyStrip d, fixedVarsOf r, groupsOf r)
  | _ => none

theorem doctest_parse_1 :
    _extract_variable_names "y ~ x1 + x2 + (1 + x1|group) + (x2|subject)" =
      some ("y", ["x1", "x2"], ["group", "subject"]) := by decide

theorem doctest_parse_2 :
    _extract_variable_names "rt ~ x_1 + (x_2|group)" =
      some ("rt", ["x_1", "x_2"], ["group"]) := by decide

theorem doctest_parse_3 :
    _extract_variable_names "RT ~ 1" = some ("RT", [], []) := by decide

/-! ## The data model of the simulation engine -/

/-- Pandas data frame, modelled as an association list from column names to
columns of rationals; lookups take the first matching name. -/
structure DF where
  cols : List (String × List ℚ)
deriving DecidableEq

/-- Column lookup. -/
def DF.getCol? (df : DF) (name : String) : Option (List ℚ) := List.lookup name df.cols

/-- Column membership, the test against experiment data columns in the source. -/
def DF.hasCol (df : DF) (name : String) : Bool := (df.getCol? name).isSome

/-- Column assignment: overwrite an existing column in place, else append a new
column at the end, as pandas does. -/
def DF.setCol (df : DF) (name : String) (v : List ℚ) : DF :=
  if df.hasCol name then ⟨df.cols.map (fun c => if c.1 = name then (name, v) else c)⟩
  else ⟨df.cols ++ [(name, v)]⟩

/-- Number of rows, read off the first column. -/
def DF.nRows (df : DF) : ℕ :=
  match df.cols with
  | [] => 0
  | c :: _ => c.2.length

/-- Random source: a stream of standard normal draws and a position; taking a
draw advances the position.  This abstracts the numpy generator, whose draws
are a deterministic function of its seed and position. -/
structure RNG where
  stream : ℕ → ℚ
  pos : ℕ

/-- One draw from a centered normal with the given standard deviation: the
standard draw of the stream scaled by the standard deviation. -/
def RNG.normal (r : RNG) (std : ℚ) : ℚ × RNG :=
  (std * r.stream r.pos, ⟨r.stream, r.pos + 1⟩)

/-- A vector of independent centered normal draws. -/
def RNG.normalVec (r : RNG) (std : ℚ) : ℕ → List ℚ × RNG
  | 0 => ([], r)
  | n + 1 =>
    ((r.normal std).1 :: ((r.normal std).2.normalVec std n).1,
      ((r.normal std).2.normalVec std n).2)

/-- Modelled from the source use of np.random.default_rng with an integer seed:
a generator whose stream is a fixed deterministic function of the seed,
standing in for the PCG64 normal variates, started at position zero. -/
def defaultRng (seed : ℤ) : RNG := ⟨fun n => (seed : ℚ) + n, 0⟩

/-- Failures of the simulation function: a formula that does not split into
two parts on the tilde, the ValueError raised when a grouping variable is not
a data column, and the KeyError raised by indexing the random-effects mapping
with an absent group key. -/
inductive LmmError where
  | formatError : LmmError
  | missingGroup : String → LmmError
  | keyError : String → LmmError
deriving DecidableEq

/-- Fixed-effect coefficients or per-group standard deviations, a Python dict
from names to numbers. -/
abbrev Dict := List (String × ℚ)

/-- Elementwise sum of two columns. -/
def addVec (a b : List ℚ) : List ℚ := List.zipWith (· + ·) a b

/-- Elementwise product of two columns. -/
def mulVec (a b : List ℚ) : List ℚ := List.zipWith (· * ·) a b

/-- Fuelled scanner for the distinct values of a column in order of first
appearance; one unit of fuel is spent per retained value, and the remaining
list shrinks at each step, so fuel equal to the length is always enough. -/
def uniqueFirstAux : ℕ → List ℚ → List ℚ
  | 0, _ => []
  | _ + 1, [] => []
  | fuel + 1, x :: xs => x :: uniqueFirstAux fuel (xs.filter (fun y => y ≠ x))

/-- Distinct values of a column in order of first appearance, as the pandas
unique method returns them. -/
def uniqueFirst (l : List ℚ) : List ℚ := uniqueFirstAux l.length l

/-- One centered normal draw per distinct group label, in order, pairing each
label with its draw. -/
def drawGroupEffects (groups : List ℚ) (std : ℚ) (r : RNG) : List (ℚ × ℚ) × RNG :=
  match groups with
  | [] => ([], r)
  | g :: rest =>
    ((g, (r.normal std).1) :: (drawGroupEffects rest std (r.normal std).2).1,
      (drawGroupEffects rest std (r.normal std).2).2)

/-! ## The simulation engine -/

/-- Embedding of the intercept test of the source: the intercept is active when
the fixed-effects dict has the key consisting of the digit one, or when the
right-hand side has no standalone zero token. -/
def hasInterceptOf (fixed_effects : Dict) (rhs : String) : Bool :=
  (List.lookup "1" fixed_effects).isSome || !(hasStandaloneZero rhs)

/-- One step of the fixed-effects loop: when the variable is a data column, add
its coefficient, default zero, times the column to the dependent column. -/
def addFixed (dep : String) (fixed_effects : Dict) (data : DF) (var : String) : DF :=
  match data.getCol? var with
  | some col =>
      data.setCol dep
        (addVec ((data.getCol? dep).getD [])
          (col.map (fun x => ((List.lookup var fixed_effects).getD 0) * x)))
  | none => data

/-- One part of a random-effect term.  Indexing the random-effects mapping with
the group raises a key error when the group is absent; otherwise the standard
deviation is the entry for the part, default one half, one draw is taken per
distinct group label, and the per-row draw is added for the random intercept
when the fixed intercept is active, or the per-row draw times the column for
a random slope whose variable is a data column; anything else is skipped.
The part is renamed to Intercept only when it equals the digit one exactly,
before stripping, as in the source. -/
def doPart (dep : String) (random_effects : List (String × Dict)) (hasI : Bool) (g : String)
    (st : DF × RNG) (part0 : String) : Except LmmError (DF × RNG) :=
  match List.lookup g random_effects with
  | none => Except.error (LmmError.keyError g)
  | some gd =>
    let part := pyStrip (if part0 = "1" then "Intercept" else part0)
    let std := (List.lookup part gd).getD (1 / 2)
    let gcol := (st.1.getCol? g).getD []
    let dr := drawGroupEffects (uniqueFirst gcol) std st.2
    let mapped := gcol.map (fun v => (List.lookup v dr.1).getD 0)
    if part = "Intercept" then
      if hasI then
        Except.ok (st.1.setCol dep (addVec ((st.1.getCol? dep).getD []) mapped), dr.2)
      else Except.ok (st.1, dr.2)
    else
      match st.1.getCol? part with
      | some col =>
          Except.ok
            (st.1.setCol dep (addVec ((st.1.getCol? dep).getD []) (mulVec mapped col)), dr.2)
      | none => Except.ok (st.1, dr.2)

/-- One random-effect term: fail when the stripped grouping variable is not a
column of the current data, else process each part of the left list split on
plus signs. -/
def doTerm (dep : String) (random_effects : List (String × Dict)) (hasI : Bool)
    (st : DF × RNG) (t : String × String) : Except LmmError (DF × RNG) :=
  if st.1.hasCol (pyStrip t.2) then
    (pySplit '+' t.1).foldlM (doPart dep random_effects hasI (pyStrip t.2)) st
  else Except.error (LmmError.missingGroup (pyStrip t.2))

/-- Embedding of the simulation function of the source, threading the random
source: split the formula on the tilde, initialize the dependent column to the
Intercept coefficient if the intercept is active else zero, add the fixed
effects for parsed variables that are data columns, process the random-effect
terms, and finally add centered noise with the given standard deviation. -/
def runCore (formula : String) (fixed_effects : Dict) (random_effects : List (String × Dict))
    (conditions : DF) (added_noise : ℚ) (rng : RNG) : Except LmmError (DF × RNG) :=
  match pySplit '~' formula with
  | [d, r] =>
    let dep := pyStrip d
    let hasI := hasInterceptOf fixed_effects r
    let n := conditions.nRows
    let data0 := conditions.setCol dep
      (List.replicate n (if hasI then (List.lookup "Intercept" fixed_effects).getD 0 else 0))
    let data1 := (fixedVarsOf r).foldl (addFixed dep fixed_effects) data0
    match (findRandTermsRun formula.toList).foldlM (doTerm dep random_effects hasI)
        (data1, rng) with
    | Except.error e => Except.error e
    | Except.ok st =>
      let nv := st.2.normalVec added_noise n
      Except.ok (st.1.setCol dep (addVec ((st.1.getCol? dep).getD []) nv.1), nv.2)
  | _ => Except.error LmmError.formatError

/-- The simulation function, returning the resulting data frame. -/
def run (formula : String) (fixed_effects : Dict) (random_effects : List (String × Dict))
    (conditions : DF) (added_noise : ℚ) (rng : RNG) : Except LmmError DF :=
  (runCore formula fixed_effects random_effects conditions added_noise rng).map Prod.fst

/-- The per-call seeding of the source: an explicit seed builds a fresh
generator, else the generator of the enclosing experiment is used. -/
def runSeeded (formula : String) (fixed_effects : Dict) (random_effects : List (String × Dict))
    (conditions : DF) (added_noise : ℚ) (random_state : Option ℤ) (outerRng : RNG) :
    Except LmmError DF :=
  run formula fixed_effects random_effects conditions added_noise
    (match random_state with
     | some s => defaultRng s
     | none => outerRng)

deriving instance DecidableEq for Except

/-! ## Helper lemmas about the vector operations -/

theorem normalVec_zero_fst (r : RNG) (n : ℕ) : (RNG.normalVec r 0 n).1 = List.replicate n 0 := by
  induction n generalizing r with
  | zero => rfl
  | succ n ih => simp [RNG.normalVec, RNG.normal, ih, List.replicate_succ]

theorem addVec_replicate_zero (l : List ℚ) (n : ℕ) (h : n = l.length) :
    addVec l (List.replicate n 0) = l := by
  subst h
  induction l with
  | nil => rfl
  | cons x xs ih => simp [addVec, List.replicate] at ih ⊢; exact ih

theorem addVec_replicate_map (a b : ℚ) (xs : List ℚ) :
    addVec (List.replicate xs.length a) (xs.map (fun x => b * x)) = xs.map (fun x => a + b * x) := by
  induction xs with
  | nil => rfl
  | cons x xs ih => simp [addVec, List.replicate] at ih ⊢; exact ih

theorem doctest_run_1 :
    run "rt ~ 1" [("Intercept", 3 / 2)] [] ⟨[("x1", [0, 1 / 4, 1 / 2, 3 / 4, 1])]⟩ 0
        (defaultRng 0) =
      Except.ok ⟨[("x1", [0, 1 / 4, 1 / 2, 3 / 4, 1]),
        ("rt", [3 / 2, 3 / 2, 3 / 2, 3 / 2, 3 / 2])]⟩ := by decide

/-! ## Helper lemmas about columns and folds -/

theorem lookup_map_replace_self (n : String) (v : List ℚ) :
    ∀ (l : List (String × List ℚ)), (List.lookup n l).isSome = true →
      List.lookup n (l.map (fun c => if c.1 = n then (n, v) else c)) = some v := by
  intro l
  induction l with
  | nil => intro h; simp [List.lookup] at h
  | cons c cs ih =>
    obtain ⟨k, w⟩ := c
    intro h
    by_cases hc : k = n
    · subst hc
      rw [List.map_cons, show (if ((k, w) : String × List ℚ).1 = k then (k, v) else (k, w)) =
        (k, v) from if_pos rfl]
      simp [List.lookup]
    · have hb : (n == k) = false := by
        simp only [beq_eq_false_iff_ne]
        exact fun hx => hc hx.symm
      simp only [List.lookup, hb] at h
      rw [List.map_cons, show (if ((k, w) : String × List ℚ).1 = n then (n, v) else (k, w)) =
        (k, w) from if_neg hc]
      simp only [List.lookup, hb]
      exact ih h

theorem lookup_map_replace_ne {c n : String} (hne : c ≠ n) (v : List ℚ)
    (l : List (String × List ℚ)) :
    List.lookup c (l.map (fun e => if e.1 = n then (n, v) else e)) = List.lookup c l := by
  induction l with
  | nil => rfl
  | cons e es ih =>
    obtain ⟨k, w⟩ := e
    by_cases he : k = n
    · subst he
      have hb : (c == k) = false := by simp [beq_eq_false_iff_ne, hne]
      rw [List.map_cons, show (if ((k, w) : String × List ℚ).1 = k then (k, v) else (k, w)) =
        (k, v) from if_pos rfl]
      simp only [List.lookup, hb]
      exact ih
    · rw [List.map_cons, show (if ((k, w) : String × List ℚ).1 = n then (n, v) else (k, w)) =
        (k, w) from if_neg he]
      cases hb : (c == k) <;> simp only [List.lookup, hb]
      · exact ih

theorem lookup_append_ne {c n : String} (hne : c ≠ n) (v : List ℚ)
    (l : List (String × List ℚ)) :
    List.lookup c (l ++ [(n, v)]) = List.lookup c l := by
  have hb0 : (c == n) = false := by simp [beq_eq_false_iff_ne, hne]
  induction l with
  | nil => simp [List.lookup, hb0]
  | cons e es ih =>
    obtain ⟨k, w⟩ := e
    cases hb : (c == k) <;> simp [List.lookup, hb, ih]

theorem lookup_append_self (n : String) (v : List ℚ) (l : List (String × List ℚ))
    (h : List.lookup n l = none) :
    List.lookup n (l ++ [(n, v)]) = some v := by
  induction l with
  | nil => simp [List.lookup]
  | cons e es ih =>
    obtain ⟨k, w⟩ := e
    cases hb : (n == k) with
    | true => simp [List.lookup, hb] at h
    | false =>
      simp only [List.lookup, hb] at h
      simp [List.lookup, hb, ih h]

theorem getCol?_setCol_self (df : DF) (n : String) (v : List ℚ) :
    (df.setCol n v).getCol? n = some v := by
  unfold DF.setCol
  split
  · exact lookup_map_replace_self n v df.cols (by assumption)
  · rename_i h
    have h2 : List.lookup n df.cols = none := by
      cases hl : List.lookup n df.cols with
      | none => rfl
      | some w => exact absurd (by simp [DF.hasCol, DF.getCol?, hl]) h
    exact lookup_append_self n v df.cols h2

theorem getCol?_setCol_ne (df : DF) {c n : String} (h : c ≠ n) (v : List ℚ) :
    (df.setCol n v).getCol? c = df.getCol? c := by
  unfold DF.setCol
  split
  · exact lookup_map_replace_ne h v df.cols
  · exact lookup_append_ne h v df.cols

theorem hasCol_setCol (df : DF) (n : String) (v : List ℚ) (c : String) :
    (df.setCol n v).hasCol c = (df.hasCol c || c == n) := by
  by_cases hc : c = n
  · subst hc
    simp [DF.hasCol, getCol?_setCol_self]
  · have hb : (c == n) = false := by simp [beq_eq_false_iff_ne, hc]
    simp [DF.hasCol, getCol?_setCol_ne df hc, hb]

theorem foldl_inv {σ α : Type} (P : σ → Prop) (f : σ → α → σ)
    (hf : ∀ s x, P s → P (f s x)) :
    ∀ (l : List α) (s : σ), P s → P (List.foldl f s l) := by
  intro l
  induction l with
  | nil => intro s hs; exact hs
  | cons x xs ih => intro s hs; exact ih (f s x) (hf s x hs)

theorem foldlM_except_ok_inv {ε σ α : Type} (P : σ → Prop) (f : σ → α → Except ε σ)
    (hf : ∀ s x s', f s x = Except.ok s' → P s → P s') :
    ∀ (l : List α) (s s' : σ), List.foldlM f s l = Except.ok s' → P s → P s' := by
  intro l
  induction l with
  | nil =>
    intro s s' h hp
    simp only [List.foldlM_nil, pure, Except.pure, Except.ok.injEq] at h
    exact h ▸ hp
  | cons x xs ih =>
    intro s s' h hp
    rw [List.foldlM_cons] at h
    cases hfx : f s x with
    | error e => rw [hfx] at h; simp [Bind.bind, Except.bind] at h
    | ok s1 =>
      rw [hfx] at h
      simp only [Bind.bind, Except.bind] at h
      exact ih s1 s' h (hf s x s1 hfx hp)

theorem foldlM_except_all_ok {ε σ α : Type} (P : σ → Prop) (f : σ → α → Except ε σ) :
    ∀ (l : List α) (s : σ),
      (∀ s x, x ∈ l → P s → ∃ s', f s x = Except.ok s' ∧ P s') → P s →
      ∃ s', List.foldlM f s l = Except.ok s' ∧ P s' := by
  intro l
  induction l with
  | nil =>
    intro s _ hp
    exact ⟨s, by simp [List.foldlM, pure, Except.pure], hp⟩
  | cons x xs ih =>
    intro s hf hp
    obtain ⟨s1, hs1, hp1⟩ := hf s x (List.mem_cons_self x xs) hp
    obtain ⟨s', hs', hp'⟩ := ih s1 (fun s y hy => hf s y (List.mem_cons_of_mem x hy)) hp1
    refine ⟨s', ?_, hp'⟩
    rw [List.foldlM_cons, hs1]
    simpa [Bind.bind, Except.bind] using hs'

theorem addFixed_cases (dep : String) (fixed_effects : Dict) (data : DF) (var : String) :
    addFixed dep fixed_effects data var = data ∨
      ∃ v, addFixed dep fixed_effects data var = data.setCol dep v := by
  unfold addFixed
  cases h : data.getCol? var with
  | none => exact Or.inl rfl
  | some col => exact Or.inr ⟨_, rfl⟩

theorem doPart_ok (dep : String) (re_ : List (String × Dict)) (hasI : Bool) (g : String)
    (st : DF × RNG) (p : String) (hg : (List.lookup g re_).isSome = true) :
    ∃ st', doPart dep re_ hasI g st p = Except.ok st' ∧
      (st'.1 = st.1 ∨ ∃ v, st'.1 = st.1.setCol dep v) := by
  unfold doPart
  cases hl : List.lookup g re_ with
  | none => rw [hl] at hg; simp at hg
  | some gd =>
    dsimp only
    by_cases hpart : pyStrip (if p = "1" then "Intercept" else p) = "Intercept"
    · rw [if_pos hpart]
      cases hasI with
      | true => exact ⟨_, rfl, Or.inr ⟨_, rfl⟩⟩
      | false => exact ⟨_, rfl, Or.inl rfl⟩
    · rw [if_neg hpart]
      cases h2 : st.1.getCol? (pyStrip (if p = "1" then "Intercept" else p)) with
      | some col => exact ⟨_, rfl, Or.inr ⟨_, rfl⟩⟩
      | none => exact ⟨_, rfl, Or.inl rfl⟩

theorem doPart_cases {dep : String} {re_ : List (String × Dict)} {hasI : Bool} {g : String}
    {st : DF × RNG} {p : String} {st' : DF × RNG}
    (h : doPart dep re_ hasI g st p = Except.ok st') :
    st'.1 = st.1 ∨ ∃ v, st'.1 = st.1.setCol dep v := by
  unfold doPart at h
  cases hl : List.lookup g re_ with
  | none => rw [hl] at h; cases h
  | some gd =>
    rw [hl] at h
    dsimp only at h
    by_cases hpart : pyStrip (if p = "1" then "Intercept" else p) = "Intercept"
    · rw [if_pos hpart] at h
      cases hasI with
      | true => rw [if_pos rfl] at h; cases h; exact Or.inr ⟨_, rfl⟩
      | false => rw [if_neg (by simp)] at h; cases h; exact Or.inl rfl
    · rw [if_neg hpart] at h
      cases h2 : st.1.getCol? (pyStrip (if p = "1" then "Intercept" else p)) with
      | some col => rw [h2] at h; cases h; exact Or.inr ⟨_, rfl⟩
      | none => rw [h2] at h; cases h; exact Or.inl rfl

theorem hasCol_after_setCol_dep (cond : DF) (dep : String) (data : DF) (v : List ℚ)
    (hp : ∀ c, data.hasCol c = (cond.hasCol c || c == dep)) :
    ∀ c, (data.setCol dep v).hasCol c = (cond.hasCol c || c == dep) := by
  intro c
  rw [hasCol_setCol, hp c, Bool.or_assoc, Bool.or_self]

theorem doTerm_ok_inv (cond : DF) (dep : String) (re_ : List (String × Dict)) (hasI : Bool)
    (st : DF × RNG) (t : String × String)
    (hre : (List.lookup (pyStrip t.2) re_).isSome = true)
    (hp : ∀ c, st.1.hasCol c = (cond.hasCol c || c == dep))
    (hcol : st.1.hasCol (pyStrip t.2) = true) :
    ∃ st', doTerm dep re_ hasI st t = Except.ok st' ∧
      (∀ c, st'.1.hasCol c = (cond.hasCol c || c == dep)) := by
  unfold doTerm
  rw [if_pos hcol]
  exact foldlM_except_all_ok
    (fun s : DF × RNG => ∀ c, s.1.hasCol c = (cond.hasCol c || c == dep)) _ _ _
    (fun s x _ hps => by
      obtain ⟨s', hs', hcases⟩ := doPart_ok dep re_ hasI (pyStrip t.2) s x hre
      refine ⟨s', hs', ?_⟩
      rcases hcases with he | ⟨v, he⟩
      · rw [he]; exact hps
      · rw [he]; exact hasCol_after_setCol_dep cond dep s.1 v hps)
    hp

theorem doTerm_fold_missing (cond : DF) (dep : String) (re_ : List (String × Dict))
    (hasI : Bool) :
    ∀ (l : List (String × String)) (st : DF × RNG),
      (∀ c, st.1.hasCol c = (cond.hasCol c || c == dep)) →
      (∀ t ∈ l, (List.lookup (pyStrip t.2) re_).isSome = true) →
      (∃ t ∈ l, cond.hasCol (pyStrip t.2) = false ∧ pyStrip t.2 ≠ dep) →
      ∃ g, List.foldlM (doTerm dep re_ hasI) st l =
          Except.error (LmmError.missingGroup g) ∧ cond.hasCol g = false := by
  intro l
  induction l with
  | nil =>
    intro st _ _ hmiss
    simp at hmiss
  | cons t ts ih =>
    intro st hp hre hmiss
    cases hcol : st.1.hasCol (pyStrip t.2) with
    | false =>
      refine ⟨pyStrip t.2, ?_, ?_⟩
      · rw [List.foldlM_cons]
        have ht : doTerm dep re_ hasI st t = Except.error (LmmError.missingGroup (pyStrip t.2)) := by
          unfold doTerm
          rw [if_neg (by simp [hcol])]
        rw [ht]
        rfl
      · have := hp (pyStrip t.2)
        rw [hcol] at this
        cases hc : cond.hasCol (pyStrip t.2) with
        | false => rfl
        | true => rw [hc] at this; simp at this
    | true =>
      obtain ⟨st1, hst1, hp1⟩ :=
        doTerm_ok_inv cond dep re_ hasI st t (hre t (List.mem_cons_self t ts)) hp hcol
      have hbad : ∃ t ∈ ts, cond.hasCol (pyStrip t.2) = false ∧ pyStrip t.2 ≠ dep := by
        rcases hmiss with ⟨t0, ht0mem, ht0cond, ht0dep⟩
        rcases List.mem_cons.mp ht0mem with he | hmem
        · subst he
          have := hp (pyStrip t0.2)
          rw [hcol, ht0cond] at this
          have hb : (pyStrip t0.2 == dep) = false := by
            simp [beq_eq_false_iff_ne, ht0dep]
          rw [hb] at this
          simp at this
        · exact ⟨t0, hmem, ht0cond, ht0dep⟩
      obtain ⟨g, hg, hgc⟩ := ih st1 hp1 (fun x hx => hre x (List.mem_cons_of_mem t hx)) hbad
      refine ⟨g, ?_, hgc⟩
      rw [List.foldlM_cons, hst1]
      simpa [Bind.bind, Except.bind] using hg

/-! ## The claims -/

/-- Whether a string is nonempty and begins with a lowercase ascii letter. -/
def startsLower (s : String) : Bool :=
  match s.toList with
  | [] => false
  | c :: _ => c.isLower

theorem dropWhile_eq_self_of_false {p : Char → Bool} (l : List Char)
    (h : ∀ c ∈ l, p c = false) : l.dropWhile p = l := by
  cases l with
  | nil => rfl
  | cons c cs => simp [List.dropWhile_cons, h c (List.mem_cons_self c cs)]

theorem pyStrip_no_ws (l : List Char) (h : ∀ c ∈ l, c.isWhitespace = false) :
    pyStrip (String.mk l) = String.mk l := by
  unfold pyStrip
  have h1 : (String.mk l).toList = l := rfl
  rw [h1, dropWhile_eq_self_of_false l h,
    dropWhile_eq_self_of_false _ (fun c hc => h c (List.mem_reverse.mp hc)),
    List.reverse_reverse]

theorem isWordChar_of_isLower {c : Char} (h : c.isLower = true) : isWordChar c = true := by
  simp [isWordChar, Char.isAlphanum, Char.isAlpha, h]

theorem not_ws_of_isWordChar {c : Char} (h : isWordChar c = true) : c.isWhitespace = false := by
  cases hw : c.isWhitespace
  · rfl
  · exfalso
    have hcs : ((c = ' ' ∨ c = '\t') ∨ c = '\r') ∨ c = '\n' := by
      simpa [Char.isWhitespace] using hw
    rcases hcs with ((h1 | h1) | h1) | h1 <;> rw [h1] at h <;> exact absurd h (by decide)

theorem wordRunAux_words : ∀ (l : List Char), ∀ c ∈ (wordRunAux l).1, isWordChar c = true := by
  intro l
  induction l with
  | nil => intro c hc; simp [wordRunAux] at hc
  | cons d ds ih =>
    intro c hc
    by_cases hd : isWordChar d = true
    · rw [wordRunAux, if_pos hd] at hc
      rcases List.mem_cons.mp hc with he | hm
      · rw [he]; exact hd
      · exact ih c hm
    · rw [wordRunAux, if_neg hd] at hc
      simp at hc

theorem wordRunAux_cons_word {d : Char} (ds : List Char) (hd : isWordChar d = true) :
    (wordRunAux (d :: ds)).1 = d :: (wordRunAux ds).1 := by
  rw [wordRunAux, if_pos hd]

theorem firstGoodLen_pos : ∀ (n : ℕ) {run_ rest : List Char} {len : ℕ},
    firstGoodLen run_ rest n = some len → 1 ≤ len := by
  intro n
  induction n with
  | zero => intro run_ rest len h; simp [firstGoodLen] at h
  | succ n ih =>
    intro run_ rest len h
    rw [firstGoodLen] at h
    split at h
    · cases h; omega
    · exact ih h

theorem findFixedAux_tokens : ∀ (fuel : ℕ) (l : List Char) (s : String),
    s ∈ findFixedAux fuel l →
    ∃ c cs, s = String.mk (c :: cs) ∧ c.isLower = true ∧
      ∀ d ∈ c :: cs, isWordChar d = true := by
  intro fuel
  induction fuel with
  | zero => intro l s h; simp [findFixedAux] at h
  | succ fuel ih =>
    intro l s h
    cases l with
    | nil => simp [findFixedAux] at h
    | cons c rest =>
      rw [findFixedAux] at h
      by_cases hc : c.isLower = true
      · rw [if_pos hc] at h
        cases hg : firstGoodLen (wordRunAux (c :: rest)).1 (wordRunAux (c :: rest)).2
            ((wordRunAux (c :: rest)).1).length with
        | none => rw [hg] at h; exact ih _ s h
        | some len =>
          rw [hg] at h
          rcases List.mem_cons.mp h with he | hm
          · have hw : isWordChar c = true := isWordChar_of_isLower hc
            have hrun : (wordRunAux (c :: rest)).1 = c :: (wordRunAux rest).1 :=
              wordRunAux_cons_word rest hw
            have hlen := firstGoodLen_pos _ hg
            obtain ⟨k, hk⟩ : ∃ k, len = k + 1 := ⟨len - 1, by omega⟩
            refine ⟨c, ((wordRunAux rest).1).take k, ?_, hc, ?_⟩
            · rw [he, hrun, hk, List.take_succ_cons]
            · intro d hd
              rcases List.mem_cons.mp hd with hd1 | hd2
              · rw [hd1]; exact hw
              · exact wordRunAux_words rest d (List.take_subset k _ hd2)
          · exact ih _ s hm
      · rw [if_neg hc] at h
        exact ih _ s h

theorem mem_insertSorted (x y : String) : ∀ (l : List String),
    y ∈ insertSorted x l ↔ y = x ∨ y ∈ l := by
  intro l
  induction l with
  | nil => simp [insertSorted]
  | cons z zs ih =>
    rw [insertSorted]
    by_cases h1 : pyLess x z = true
    · rw [if_pos h1]
      simp [List.mem_cons]
    · rw [if_neg h1]
      by_cases h2 : x = z
      · rw [if_pos h2, h2]
        simp [List.mem_cons]
      · rw [if_neg h2]
        simp only [List.mem_cons, ih]
        tauto

theorem mem_dedupSort (y : String) : ∀ (l : List String), y ∈ dedupSort l ↔ y ∈ l := by
  intro l
  induction l with
  | nil => simp [dedupSort]
  | cons x xs ih =>
    have hd : dedupSort (x :: xs) = insertSorted x (dedupSort xs) := rfl
    rw [hd, mem_insertSorted]
    simp only [List.mem_cons, ih]

theorem fixedVarsOf_mem (rhs : String) (s : String) (h : s ∈ fixedVarsOf rhs) :
    startsLower s = true ∨
      ∃ t ∈ findRandTermsParser rhs.toList,
        s ∈ (pySplit '+' (pyReplace t.1 "1 + " "")).map pyStrip := by
  unfold fixedVarsOf at h
  rw [mem_dedupSort] at h
  rcases List.mem_map.mp h with ⟨y, hy, hys⟩
  rcases List.mem_append.mp hy with hyt | hya
  · left
    obtain ⟨c, cs, hmk, hlow, hword⟩ := findFixedAux_tokens _ _ y hyt
    have hstr : pyStrip y = y := by
      rw [hmk]
      exact pyStrip_no_ws _ (fun d hd => not_ws_of_isWordChar (hword d hd))
    rw [← hys, hstr, hmk]
    simpa [startsLower] using hlow
  · right
    rcases List.mem_flatten.mp hya with ⟨piece, hpiece, hyp⟩
    rcases List.mem_map.mp hpiece with ⟨t, ht, hteq⟩
    refine ⟨t, ht, ?_⟩
    rw [← hys]
    exact List.mem_map_of_mem pyStrip (hteq ▸ hyp)

theorem char_eq_of_toNat_eq {a b : Char} (h : a.toNat = b.toNat) : a = b :=
  Char.eq_of_val_eq (UInt32.ext h)

theorem listLess_irrefl : ∀ (l : List Char), listLess l l = false := by
  intro l
  induction l with
  | nil => rfl
  | cons c cs ih => simp [listLess, ih]

theorem pyLess_irrefl (s : String) : pyLess s s = false := listLess_irrefl _

theorem listLess_trans : ∀ (a b c : List Char),
    listLess a b = true → listLess b c = true → listLess a c = true := by
  intro a
  induction a with
  | nil =>
    intro b c hab hbc
    cases b with
    | nil => simp [listLess] at hab
    | cons y ys =>
      cases c with
      | nil => simp [listLess] at hbc
      | cons z zs => rfl
  | cons x xs ih =>
    intro b c hab hbc
    cases b with
    | nil => simp [listLess] at hab
    | cons y ys =>
      cases c with
      | nil => simp [listLess] at hbc
      | cons z zs =>
        rw [listLess] at hab hbc ⊢
        by_cases h1 : x.toNat < y.toNat
        · by_cases h2 : y.toNat < z.toNat
          · rw [if_pos (by omega)]
          · by_cases h3 : z.toNat < y.toNat
            · rw [if_neg h2, if_pos h3] at hbc
              exact absurd hbc (by simp)
            · rw [if_pos (by omega)]
        · by_cases h1b : y.toNat < x.toNat
          · rw [if_neg h1, if_pos h1b] at hab
            exact absurd hab (by simp)
          · rw [if_neg h1, if_neg h1b] at hab
            by_cases h2 : y.toNat < z.toNat
            · rw [if_pos (by omega)]
            · by_cases h3 : z.toNat < y.toNat
              · rw [if_neg h2, if_pos h3] at hbc
                exact absurd hbc (by simp)
              · rw [if_neg h2, if_neg h3] at hbc
                rw [if_neg (by omega), if_neg (by omega)]
                exact ih ys zs hab hbc

theorem pyLess_trans {a b c : String} (h1 : pyLess a b = true) (h2 : pyLess b c = true) :
    pyLess a c = true := listLess_trans _ _ _ h1 h2

theorem listLess_total : ∀ (a b : List Char),
    a = b ∨ listLess a b = true ∨ listLess b a = true := by
  intro a
  induction a with
  | nil =>
    intro b
    cases b with
    | nil => exact Or.inl rfl
    | cons z zs => exact Or.inr (Or.inl rfl)
  | cons x xs ih =>
    intro b
    cases b with
    | nil => exact Or.inr (Or.inr rfl)
    | cons y ys =>
      by_cases h1 : x.toNat < y.toNat
      · exact Or.inr (Or.inl (by rw [listLess, if_pos h1]))
      · by_cases h2 : y.toNat < x.toNat
        · exact Or.inr (Or.inr (by rw [listLess, if_pos h2]))
        · have hxy : x = y := char_eq_of_toNat_eq (by omega)
          subst hxy
          rcases ih ys with he | hl | hl
          · exact Or.inl (by rw [he])
          · exact Or.inr (Or.inl (by rw [listLess, if_neg h1, if_neg h2]; exact hl))
          · exact Or.inr (Or.inr (by rw [listLess, if_neg h1, if_neg h2]; exact hl))

theorem pyLess_total (a b : String) (h : a ≠ b) :
    pyLess a b = true ∨ pyLess b a = true := by
  rcases listLess_total a.toList b.toList with he | hl | hl
  · exfalso
    apply h
    cases a with
    | mk d1 =>
      cases b with
      | mk d2 => exact congrArg String.mk he
  · exact Or.inl hl
  · exact Or.inr hl

theorem pairwise_insertSorted (x : String) : ∀ (l : List String),
    l.Pairwise (fun a b => pyLess a b = true) →
    (insertSorted x l).Pairwise (fun a b => pyLess a b = true) := by
  intro l
  induction l with
  | nil => intro _; simp [insertSorted]
  | cons y ys ih =>
    intro hp
    rw [insertSorted]
    rcases List.pairwise_cons.mp hp with ⟨hy, hys⟩
    by_cases h1 : pyLess x y = true
    · rw [if_pos h1]
      refine List.pairwise_cons.mpr ⟨?_, hp⟩
      intro z hz
      rcases List.mem_cons.mp hz with he | hm
      · rw [he]; exact h1
      · exact pyLess_trans h1 (hy z hm)
    · rw [if_neg h1]
      by_cases h2 : x = y
      · rw [if_pos h2]
        exact hp
      · rw [if_neg h2]
        refine List.pairwise_cons.mpr ⟨?_, ih hys⟩
        intro z hz
        rcases (mem_insertSorted x z ys).mp hz with he | hm
        · rcases pyLess_total x y h2 with hxy | hyx
          · exact absurd hxy h1
          · rw [he]; exact hyx
        · exact hy z hm

theorem pairwise_dedupSort : ∀ (l : List String),
    (dedupSort l).Pairwise (fun a b => pyLess a b = true) := by
  intro l
  induction l with
  | nil => simp [dedupSort]
  | cons x xs ih => exact pairwise_insertSorted x (dedupSort xs) ih

theorem nodup_dedupSort (l : List String) : (dedupSort l).Nodup := by
  refine (pairwise_dedupSort l).imp ?_
  intro a b hab he
  rw [he, pyLess_irrefl] at hab
  exact absurd hab (by simp)

/-- Claim C1, counterexample.  With formula y tilde 0 plus x1, whose right-hand
side has a standalone 0 token, and a fixed-effect dict carrying an explicit
Intercept entry of 5, the claim predicts an active intercept; the code tests
for the key consisting of the digit one, so the intercept is inactive: the
intercept predicate of the simulation is false, and running the simulation
with zero noise yields a dependent column of zeros rather than fives. -/
theorem c1_counterexample :
    ¬ (hasInterceptOf [("Intercept", 5)] " 0 + x1" = true ↔
        ¬ (hasStandaloneZero " 0 + x1" = true ∧
            List.lookup "Intercept" [("Intercept", (5 : ℚ))] = none)) ∧
      run "y ~ 0 + x1" [("Intercept", 5)] [] ⟨[("x1", [0])]⟩ 0 (defaultRng 0) =
        Except.ok ⟨[("x1", [0]), ("y", [0])]⟩ := by
  constructor
  · decide
  · decide

/-- Claim C1, amended.  The simulation treats the intercept as active exactly
when it is not the case that the right-hand side contains a standalone 0
token while the fixed-effect dict has no entry under the key consisting of
the digit one; the reserved key is the string of the digit one, not the word
Intercept.  In particular an entry under that digit key makes the intercept
active even with a standalone 0 in the right-hand side, as the second
conjunct shows on the simulation output itself. -/
theorem c1_intercept_rule :
    (∀ (fixed_effects : Dict) (rhs : String),
      hasInterceptOf fixed_effects rhs =
        !(hasStandaloneZero rhs && (List.lookup "1" fixed_effects).isNone)) ∧
      run "y ~ 0 + x1" [("Intercept", 5), ("1", 1)] [] ⟨[("x1", [0])]⟩ 0 (defaultRng 0) =
        Except.ok ⟨[("x1", [0]), ("y", [5])]⟩ := by
  constructor
  · intro fixed_effects rhs
    cases h : List.lookup "1" fixed_effects <;>
      cases h2 : hasStandaloneZero rhs <;>
        simp [hasInterceptOf, h, h2]
  · decide

/-- Claim C2.  For the formula rt tilde 1 plus x1 with Intercept coefficient a
and slope b for x1, no random effects and zero noise, the simulated column rt
equals a plus b times x1 elementwise, for every column x1 and every random
stream; and the concrete scenario of the claim evaluates as stated. -/
theorem c2_linear_model :
    (∀ (a b : ℚ) (xs : List ℚ) (f : ℕ → ℚ) (p : ℕ),
      run "rt ~ 1 + x1" [("Intercept", a), ("x1", b)] [] ⟨[("x1", xs)]⟩ 0 ⟨f, p⟩ =
        Except.ok ⟨[("x1", xs), ("rt", xs.map (fun x => a + b * x))]⟩) ∧
      run "rt ~ 1 + x1" [("Intercept", 1), ("x1", 2)] []
          ⟨[("x1", [0, 1 / 4, 1 / 2, 3 / 4, 1])]⟩ 0 (defaultRng 0) =
        Except.ok ⟨[("x1", [0, 1 / 4, 1 / 2, 3 / 4, 1]), ("rt", [1, 3 / 2, 2, 5 / 2, 3])]⟩ := by
  constructor
  · intro a b xs f p
    show Except.ok (DF.mk [("x1", xs),
        ("rt", addVec (addVec (List.replicate xs.length a) (List.map (fun x => b * x) xs))
          (RNG.normalVec ⟨f, p⟩ 0 xs.length).1)]) = _
    rw [addVec_replicate_map, normalVec_zero_fst,
      addVec_replicate_zero _ _ (List.length_map xs _).symm]
  · decide

/-- Claim C3, counterexample.  The group membership test runs against the
experiment data after the dependent column has been created, so a random
term whose grouping variable is spelled like the dependent variable escapes
the check: the formula y tilde open x1 bar y close with conditions holding
only the column x1 returns a result instead of raising the missing group
error, although y is not a column of the conditions table. -/
theorem c3_counterexample :
    DF.hasCol ⟨[("x1", [0])]⟩ "y" = false ∧
      run "y ~ (x1|y)" [] [("y", [("x1", 1)])] ⟨[("x1", [0])]⟩ 0 (defaultRng 0) =
        Except.ok ⟨[("x1", [0]), ("y", [0])]⟩ := by
  constructor
  · decide
  · decide

/-- Claim C3, amended.  For every formula with a random-effect term whose
stripped grouping variable is neither a column of the conditions table nor
spelled like the stripped dependent name, and whose term groups all have
entries in the random-effects specification so that no earlier term fails
with a key error first, the simulation raises the missing group error for
some grouping variable absent from the conditions, and returns no result. -/
theorem c3_missing_group (formula : String) (fixed_effects : Dict)
    (random_effects : List (String × Dict)) (conditions : DF) (added_noise : ℚ) (rng : RNG)
    (d r : String)
    (hsplit : pySplit '~' formula = [d, r])
    (hspec : ∀ t ∈ findRandTermsRun formula.toList,
      (List.lookup (pyStrip t.2) random_effects).isSome = true)
    (hmiss : ∃ t ∈ findRandTermsRun formula.toList,
      conditions.hasCol (pyStrip t.2) = false ∧ pyStrip t.2 ≠ pyStrip d) :
    ∃ g, run formula fixed_effects random_effects conditions added_noise rng =
        Except.error (LmmError.missingGroup g) ∧ conditions.hasCol g = false := by
  have hpres : ∀ (df : DF) (v : String),
      (∀ c, df.hasCol c = (conditions.hasCol c || c == pyStrip d)) →
      ∀ c, (addFixed (pyStrip d) fixed_effects df v).hasCol c =
        (conditions.hasCol c || c == pyStrip d) := by
    intro df v hdf
    rcases addFixed_cases (pyStrip d) fixed_effects df v with he | ⟨w, he⟩
    · rw [he]; exact hdf
    · rw [he]; exact hasCol_after_setCol_dep conditions (pyStrip d) df w hdf
  have hinv : ∀ c,
      (List.foldl (addFixed (pyStrip d) fixed_effects)
        (conditions.setCol (pyStrip d) (List.replicate conditions.nRows
          (if hasInterceptOf fixed_effects r = true
            then (List.lookup "Intercept" fixed_effects).getD 0 else 0)))
        (fixedVarsOf r)).hasCol c = (conditions.hasCol c || c == pyStrip d) :=
    foldl_inv (fun df : DF => ∀ c, df.hasCol c = (conditions.hasCol c || c == pyStrip d))
      (addFixed (pyStrip d) fixed_effects) (fun s x hs => hpres s x hs) (fixedVarsOf r) _
      (fun c => hasCol_setCol conditions (pyStrip d) _ c)
  obtain ⟨g, hg, hgc⟩ := doTerm_fold_missing conditions (pyStrip d) random_effects
    (hasInterceptOf fixed_effects r) (findRandTermsRun formula.toList)
    (List.foldl (addFixed (pyStrip d) fixed_effects)
      (conditions.setCol (pyStrip d) (List.replicate conditions.nRows
        (if hasInterceptOf fixed_effects r = true
          then (List.lookup "Intercept" fixed_effects).getD 0 else 0)))
      (fixedVarsOf r), rng)
    hinv hspec hmiss
  refine ⟨g, ?_, hgc⟩
  unfold run runCore
  rw [hsplit]
  dsimp only
  rw [hg]
  rfl

theorem c3_missing_group_witness :
    pySplit '~' "y ~ (x1|g)" = ["y ", " (x1|g)"] ∧
      (∀ t ∈ findRandTermsRun "y ~ (x1|g)".toList,
        (List.lookup (pyStrip t.2) [("g", ([] : Dict))]).isSome = true) ∧
      (∃ t ∈ findRandTermsRun "y ~ (x1|g)".toList,
        DF.hasCol ⟨[("x1", [1])]⟩ (pyStrip t.2) = false ∧ pyStrip t.2 ≠ pyStrip "y ") ∧
      ∃ g, run "y ~ (x1|g)" [] [("g", [])] ⟨[("x1", [1])]⟩ 0 (defaultRng 0) =
          Except.error (LmmError.missingGroup g) ∧ DF.hasCol ⟨[("x1", [1])]⟩ g = false :=
  ⟨by decide, by decide, by decide,
    c3_missing_group "y ~ (x1|g)" [] [("g", [])] ⟨[("x1", [1])]⟩ 0 (defaultRng 0) "y " " (x1|g)"
      (by decide) (by decide) (by decide)⟩

theorem doTerm_pres_getCol (cond : DF) (dep : String) (re_ : List (String × Dict))
    (hasI : Bool) (st st' : DF × RNG) (t : String × String)
    (h : doTerm dep re_ hasI st t = Except.ok st')
    (hq : ∀ c, c ≠ dep → st.1.getCol? c = cond.getCol? c) :
    ∀ c, c ≠ dep → st'.1.getCol? c = cond.getCol? c := by
  unfold doTerm at h
  by_cases hcol : st.1.hasCol (pyStrip t.2) = true
  · rw [if_pos hcol] at h
    exact foldlM_except_ok_inv
      (fun s : DF × RNG => ∀ c, c ≠ dep → s.1.getCol? c = cond.getCol? c)
      _ (fun s x s' hs hps => by
          rcases doPart_cases hs with he | ⟨v, he⟩
          · rw [he]; exact hps
          · rw [he]; intro c hc; rw [getCol?_setCol_ne _ hc]; exact hps c hc)
      _ _ _ h hq
  · rw [if_neg hcol] at h; cases h

/-- Claim C8.  In the embedding the input conditions table is a value, never
mutated; the theorem states the frame property observably: whenever
simulation succeeds, every column other than the stripped dependent name is
looked up in the output exactly as in the input conditions (so columns the
formula does not reference pass through unchanged), and the output carries a
column under the dependent name, overwriting any existing one. -/
theorem c8_no_mutation (formula : String) (fixed_effects : Dict)
    (random_effects : List (String × Dict)) (conditions : DF) (added_noise : ℚ) (rng : RNG)
    (d r : String) (out : DF)
    (hsplit : pySplit '~' formula = [d, r])
    (hok : run formula fixed_effects random_effects conditions added_noise rng =
      Except.ok out) :
    (∀ c, c ≠ pyStrip d → out.getCol? c = conditions.getCol? c) ∧
      out.hasCol (pyStrip d) = true := by
  unfold run runCore at hok
  rw [hsplit] at hok
  dsimp only at hok
  have hq1 : ∀ c, c ≠ pyStrip d →
      (List.foldl (addFixed (pyStrip d) fixed_effects)
        (conditions.setCol (pyStrip d) (List.replicate conditions.nRows
          (if hasInterceptOf fixed_effects r = true
            then (List.lookup "Intercept" fixed_effects).getD 0 else 0)))
        (fixedVarsOf r)).getCol? c = conditions.getCol? c :=
    foldl_inv (fun df : DF => ∀ c, c ≠ pyStrip d → df.getCol? c = conditions.getCol? c)
      (addFixed (pyStrip d) fixed_effects)
      (fun s x hs => by
        rcases addFixed_cases (pyStrip d) fixed_effects s x with he | ⟨w, he⟩
        · rw [he]; exact hs
        · rw [he]; intro c hc; rw [getCol?_setCol_ne _ hc]; exact hs c hc)
      (fixedVarsOf r) _
      (fun c hc => getCol?_setCol_ne conditions hc _)
  cases hfold : List.foldlM (doTerm (pyStrip d) random_effects (hasInterceptOf fixed_effects r))
      (List.foldl (addFixed (pyStrip d) fixed_effects)
        (conditions.setCol (pyStrip d) (List.replicate conditions.nRows
          (if hasInterceptOf fixed_effects r = true
            then (List.lookup "Intercept" fixed_effects).getD 0 else 0)))
        (fixedVarsOf r), rng)
      (findRandTermsRun formula.toList) with
  | error e => rw [hfold] at hok; cases hok
  | ok st =>
    rw [hfold] at hok
    have hout : out = st.1.setCol (pyStrip d)
        (addVec ((st.1.getCol? (pyStrip d)).getD [])
          (st.2.normalVec added_noise conditions.nRows).1) := by
      cases hok
      rfl
    have hqst : ∀ c, c ≠ pyStrip d → st.1.getCol? c = conditions.getCol? c :=
      foldlM_except_ok_inv
        (fun s : DF × RNG => ∀ c, c ≠ pyStrip d → s.1.getCol? c = conditions.getCol? c)
        _ (fun s x s' hs hps => doTerm_pres_getCol conditions (pyStrip d) random_effects
            (hasInterceptOf fixed_effects r) s s' x hs hps)
        _ _ _ hfold hq1
    constructor
    · intro c hc
      rw [hout, getCol?_setCol_ne _ hc]
      exact hqst c hc
    · rw [hout]
      simp [DF.hasCol, getCol?_setCol_self]

theorem c8_no_mutation_witness :
    pySplit '~' "y ~ x1" = ["y ", " x1"] ∧
      run "y ~ x1" [("x1", 1)] [] ⟨[("x1", [2]), ("z", [5])]⟩ 0 (defaultRng 0) =
        Except.ok ⟨[("x1", [2]), ("z", [5]), ("y", [2])]⟩ ∧
      (∀ c, c ≠ pyStrip "y " →
        DF.getCol? ⟨[("x1", [2]), ("z", [5]), ("y", [2])]⟩ c =
          DF.getCol? ⟨[("x1", [2]), ("z", [5])]⟩ c) ∧
      DF.hasCol ⟨[("x1", [2]), ("z", [5]), ("y", [2])]⟩ (pyStrip "y ") = true :=
  ⟨by decide, by decide,
    (c8_no_mutation "y ~ x1" [("x1", 1)] [] ⟨[("x1", [2]), ("z", [5])]⟩ 0 (defaultRng 0)
      "y " " x1" ⟨[("x1", [2]), ("z", [5]), ("y", [2])]⟩ (by decide) (by decide)).1,
    (c8_no_mutation "y ~ x1" [("x1", 1)] [] ⟨[("x1", [2]), ("z", [5])]⟩ 0 (defaultRng 0)
      "y " " x1" ⟨[("x1", [2]), ("z", [5]), ("y", [2])]⟩ (by decide) (by decide)).2⟩

/-- Claim C4, counterexample.  Indexing the random-effects mapping with a
group key that is entirely absent raises a key error instead of defaulting
to the standard deviation one half: with formula y tilde open x1 bar g close,
an empty random-effects specification and conditions holding both columns,
the simulation fails, contradicting the part of the claim that says it does
not fail when the group key is unspecified. -/
theorem c4_counterexample :
    List.lookup "g" ([] : List (String × Dict)) = none ∧
      run "y ~ (x1|g)" [] [] ⟨[("x1", [1]), ("g", [1])]⟩ 0 (defaultRng 0) =
        Except.error (LmmError.keyError "g") := by
  constructor
  · rfl
  · decide

/-- Claim C4, amended.  The standard deviation of a random term is the entry
of the random-effects specification under the group then the term, and it
defaults to one half when the term is missing from the dict of a group that
is itself present: with the term entry absent the slope contribution is one
half times the draw, and with an entry s it is s times the draw.  When the
group key is absent altogether the simulation instead fails with a key
error, for every random stream. -/
theorem c4_std_default :
    (∀ (gd : Dict) (f : ℕ → ℚ) (p : ℕ), List.lookup "x1" gd = none →
      run "y ~ (x1|g)" [] [("g", gd)] ⟨[("x1", [2]), ("g", [7])]⟩ 0 ⟨f, p⟩ =
        Except.ok ⟨[("x1", [2]), ("g", [7]), ("y", [f p])]⟩) ∧
      (∀ (s : ℚ) (f : ℕ → ℚ) (p : ℕ),
        run "y ~ (x1|g)" [] [("g", [("x1", s)])] ⟨[("x1", [2]), ("g", [7])]⟩ 0 ⟨f, p⟩ =
          Except.ok ⟨[("x1", [2]), ("g", [7]), ("y", [s * f p * 2])]⟩) ∧
      ∀ (f : ℕ → ℚ) (p : ℕ),
        run "y ~ (x1|g)" [] [] ⟨[("x1", [2]), ("g", [7])]⟩ 0 ⟨f, p⟩ =
          Except.error (LmmError.keyError "g") := by
  refine ⟨?_, ?_, ?_⟩
  · intro gd f p h
    show Except.ok (DF.mk [("x1", [2]), ("g", [7]),
        ("y", [0 + 0 * 2 + (List.lookup "x1" gd).getD (1 / 2) * f p * 2 + 0 * f (p + 1)])]) = _
    rw [h]
    norm_num
    ring
  · intro s f p
    show Except.ok (DF.mk [("x1", [2]), ("g", [7]),
        ("y", [0 + 0 * 2 + s * f p * 2 + 0 * f (p + 1)])]) = _
    norm_num
  · intro f p
    rfl

theorem c4_std_default_witness :
    List.lookup "x1" ([] : Dict) = none ∧
      run "y ~ (x1|g)" [] [("g", [])] ⟨[("x1", [2]), ("g", [7])]⟩ 0 ⟨fun n => n + 1, 0⟩ =
        Except.ok ⟨[("x1", [2]), ("g", [7]), ("y", [1])]⟩ :=
  ⟨rfl, c4_std_default.1 [] (fun n => (n : ℚ) + 1) 0 rfl⟩

/-- Claim C5, counterexample.  The random-intercept marker is recognized only
when a part of the term list equals the digit one exactly before stripping;
in the spelling with spaces around the plus sign, the part is the digit one
followed by a space, so it is treated as a random slope on a column named
with the digit one, which does not exist, and the nonzero per-group draw is
never added: the output keeps the fixed intercept value one alone.  With the
spelling without spaces the marker is recognized and the draw, equal to one
under this stream, is added, giving two. -/
theorem c5_counterexample :
    run "y ~ (1 + x1|g)" [("Intercept", 1)]
        [("g", [("1", 1), ("Intercept", 1), ("x1", 1)])]
        ⟨[("x1", [0]), ("g", [0])]⟩ 0 (defaultRng 1) =
      Except.ok ⟨[("x1", [0]), ("g", [0]), ("y", [1])]⟩ ∧
      run "y ~ (1|g)" [("Intercept", 1)]
          [("g", [("1", 1), ("Intercept", 1), ("x1", 1)])]
          ⟨[("x1", [0]), ("g", [0])]⟩ 0 (defaultRng 1) =
        Except.ok ⟨[("x1", [0]), ("g", [0]), ("y", [2])]⟩ := by
  constructor
  · decide
  · decide

/-- Claim C5, amended.  When a part of a random term equals the digit one
exactly, as in the spellings without spaces, it is the random intercept:
with an active fixed intercept of coefficient a the per-group draw, the
configured standard deviation s times the standard draw, is added to every
row of that group; with the fixed intercept disabled by a standalone 0 the
term is skipped and contributes nothing, for every stream.  Spellings with
spaces around the plus sign are not recognized, as the counterexample
records. -/
theorem c5_random_intercept :
    (∀ (a s : ℚ) (f : ℕ → ℚ) (p : ℕ),
      run "y ~ (1|g)" [("Intercept", a)] [("g", [("Intercept", s)])] ⟨[("g", [7, 7])]⟩ 0
          ⟨f, p⟩ =
        Except.ok ⟨[("g", [7, 7]), ("y", [a + s * f p, a + s * f p])]⟩) ∧
      ∀ (s : ℚ) (f : ℕ → ℚ) (p : ℕ),
        run "y ~ 0 + (1|g)" [] [("g", [("Intercept", s)])] ⟨[("g", [7, 7])]⟩ 0 ⟨f, p⟩ =
          Except.ok ⟨[("g", [7, 7]), ("y", [0, 0])]⟩ := by
  constructor
  · intro a s f p
    show Except.ok (DF.mk [("g", [7, 7]),
        ("y", [a + s * f p + 0 * f (p + 1), a + s * f p + 0 * f (p + 2)])]) = _
    norm_num
  · intro s f p
    show Except.ok (DF.mk [("g", [7, 7]),
        ("y", [0 + 0 * f (p + 1), 0 + 0 * f (p + 2)])]) = _
    norm_num

/-- Claim C9.  A random slope on a variable that is not a column of the
conditions table neither raises an error nor contributes: with the slope
variable x9 absent from the columns, any per-term dict for the present
group g, and any stream, the simulation succeeds and the dependent column
is exactly zero. -/
theorem c9_missing_slope_column (x c : ℚ) (gd : Dict) (f : ℕ → ℚ) (p : ℕ) :
    DF.hasCol ⟨[("x1", [x]), ("g", [c])]⟩ "x9" = false ∧
      run "y ~ (x9|g)" [] [("g", gd)] ⟨[("x1", [x]), ("g", [c])]⟩ 0 ⟨f, p⟩ =
        Except.ok ⟨[("x1", [x]), ("g", [c]), ("y", [0])]⟩ := by
  constructor
  · rfl
  · show Except.ok (DF.mk [("x1", [x]), ("g", [c]), ("y", [0 + 0 * f (p + 1)])]) = _
    norm_num

/-- Claim C6, counterexample.  The random-intercept marker is removed from a
clause term list only as the literal text consisting of the digit one, a
space, a plus sign and a space: in the spellings without that exact text the
digit one is added to the fixed-effect name set, contradicting the claim
that it is never added regardless of spacing. -/
theorem c6_counterexample :
    _extract_variable_names "y ~ (1|g)" = some ("y", ["1"], ["g"]) ∧
      _extract_variable_names "y ~ (1+x1|g)" = some ("y", ["1", "x1"], ["g"]) := by
  constructor
  · decide
  · decide

/-- Claim C6, amended.  Both output lists of the extraction are strictly
sorted in the code-point order and duplicate-free; each name in the term
list of every random clause, after removing the literal digit-one-plus text
and splitting on plus signs and stripping, is added to the fixed-effect
set; and the marker is stripped exactly in the spaced spelling, as the
middle conjunct shows, while the counterexample records that other
spellings add the digit one. -/
theorem c6_parser_random_terms :
    (∀ rhs : String,
      (fixedVarsOf rhs).Pairwise (fun a b => pyLess a b = true) ∧
        (fixedVarsOf rhs).Nodup ∧
        (groupsOf rhs).Pairwise (fun a b => pyLess a b = true) ∧
        (groupsOf rhs).Nodup) ∧
      _extract_variable_names "y ~ (1 + x1|g)" = some ("y", ["x1"], ["g"]) ∧
      ∀ (rhs : String) (t : String × String) (s : String),
        t ∈ findRandTermsParser rhs.toList →
        s ∈ (pySplit '+' (pyReplace t.1 "1 + " "")).map pyStrip →
        s ∈ fixedVarsOf rhs := by
  refine ⟨?_, by decide, ?_⟩
  · intro rhs
    exact ⟨pairwise_dedupSort _, nodup_dedupSort _, pairwise_dedupSort _, nodup_dedupSort _⟩
  · intro rhs t s ht hs
    unfold fixedVarsOf
    rw [mem_dedupSort]
    rcases List.mem_map.mp hs with ⟨y, hy, hys⟩
    refine List.mem_map.mpr ⟨y, ?_, hys⟩
    refine List.mem_append.mpr (Or.inr ?_)
    exact List.mem_flatten.mpr
      ⟨pySplit '+' (pyReplace t.1 "1 + " ""),
        List.mem_map_of_mem (fun t => pySplit '+' (pyReplace t.1 "1 + " "")) ht, hy⟩

theorem c6_parser_random_terms_witness :
    ("x2", "g") ∈ findRandTermsParser " (x2|g)".toList ∧
      "x2" ∈ (pySplit '+' (pyReplace "x2" "1 + " "")).map pyStrip ∧
      "x2" ∈ fixedVarsOf " (x2|g)" :=
  ⟨by decide, by decide,
    c6_parser_random_terms.2.2 " (x2|g)" ("x2", "g") "x2" (by decide) (by decide)⟩

/-- Claim C10.  Every name in the extracted fixed-effect set either begins
with a lowercase letter or was contributed by the term list of some
random-effect clause; hence a bare term not beginning with a lowercase
letter, such as X1, is omitted by the extraction, as the middle conjunct
records for the right-hand side holding only X1, and the simulation then
adds no contribution for it even though a coefficient is supplied and the
column is present: the dependent column stays zero for every value and
every stream. -/
theorem c10_lowercase_only :
    (∀ (rhs s : String), s ∈ fixedVarsOf rhs →
      startsLower s = true ∨
        ∃ t ∈ findRandTermsParser rhs.toList,
          s ∈ (pySplit '+' (pyReplace t.1 "1 + " "")).map pyStrip) ∧
      fixedVarsOf " X1" = [] ∧
      ∀ (q : ℚ) (f : ℕ → ℚ) (p : ℕ),
        run "rt ~ X1" [("X1", 3)] [] ⟨[("X1", [q])]⟩ 0 ⟨f, p⟩ =
          Except.ok ⟨[("X1", [q]), ("rt", [0])]⟩ := by
  refine ⟨fun rhs s h => fixedVarsOf_mem rhs s h, by decide, ?_⟩
  intro q f p
  show Except.ok (DF.mk [("X1", [q]), ("rt", [0 + 0 * f p])]) = _
  norm_num

theorem c10_lowercase_only_witness :
    "x1" ∈ fixedVarsOf " X1 + x1" ∧
      (startsLower "x1" = true ∨
        ∃ t ∈ findRandTermsParser " X1 + x1".toList,
          "x1" ∈ (pySplit '+' (pyReplace t.1 "1 + " "")).map pyStrip) :=
  ⟨by decide, c10_lowercase_only.1 " X1 + x1" "x1" (by decide)⟩

/-- Claim C7.  Two simulation calls with the same explicit per-call seed
produce identical output, whatever the formula, effect dicts, conditions,
noise level, and whatever the states of the enclosing generator at the two
calls: with an explicit seed the per-call generator is rebuilt from the seed
alone. -/
theorem c7_seed_determinism (formula : String) (fixed_effects : Dict)
    (random_effects : List (String × Dict)) (conditions : DF) (added_noise : ℚ) (s : ℤ)
    (r1 r2 : RNG) :
    runSeeded formula fixed_effects random_effects conditions added_noise (some s) r1 =
      runSeeded formula fixed_effects random_effects conditions added_noise (some s) r2 := rfl
